import Mathlib

/-!
Verification of the platypii PII-detection/anonymization core.

Source units embedded here (shallow embedding, Python → Lean):

* `src/platypii/utils.py` — `PIIMatch`, `Validator.validate_ssn`,
  `Validator.validate_credit_card`, `merge_overlapping_matches`.
* `src/platypii/processors/anonymizer.py` — `Anonymizer` and
  `anonymize_text` with its strategy dispatch.
* `src/platypii/detectors/regex_detector.py` — `add_custom_pattern`.
* `src/platypii/core/detector.py` — `add_pattern`, and the (broken)
  `detect` entry point, whose call to `TextProcessor.clean_text` has no
  target in `utils.py`.

Python strings are embedded as `List Char`, floats occurring as
confidence scores as `ℚ` (only their ordering is ever used), `None`
returns as `Option`, and raising calls as `Except`.  Module-level Python
imports are not modelled; each function is embedded by its
body.  Python's stable `sorted(key=...)` is embedded with Mathlib's
stable `List.insertionSort` on the corresponding key relation.
-/

/-- ASCII whitespace as matched by the `\s` class and `str.isspace` in the
source's regular expressions (the Unicode-only whitespace code points play
no role in any claim). -/
def charIsPySpace (c : Char) : Bool :=
  c == ' ' || c == '\t' || c == '\n' || c == '\r' || c == '\x0B' || c == '\x0C'

/-- ASCII digit, as matched by `\d` and `str.isdigit` on the inputs relevant
here. -/
def charIsAsciiDigit (c : Char) : Bool :=
  48 ≤ c.toNat && c.toNat ≤ 57

/-- Characters kept by `re.sub(r'[-\s]', '', s)` (strip dashes and
whitespace), used by `validate_ssn` and `validate_credit_card`. -/
def notSepChar (c : Char) : Bool :=
  !(c == '-' || charIsPySpace c)

/-- `str.strip()`: drop leading and trailing whitespace. -/
def pyStrip (l : List Char) : List Char :=
  ((l.dropWhile charIsPySpace).reverse.dropWhile charIsPySpace).reverse

/-- Python `str.isdigit()`: nonempty and all digits. -/
def pyIsDigitStr (l : List Char) : Bool :=
  !l.isEmpty && l.all charIsAsciiDigit

/-- Python `str.split()` (no separator): maximal runs of non-whitespace
characters; leading/trailing/repeated whitespace yields no empty parts. -/
def pySplitWs (l : List Char) : List (List Char) :=
  (l.splitOnP charIsPySpace).filter (fun part => !part.isEmpty)

/-- The dataclass `PIIMatch` of `utils.py`.  The Python field `end` is a
Lean keyword and is embedded as `stop`. -/
structure PIIMatch where
  pii_type : String
  value : List Char
  start : Nat
  stop : Nat
  confidence : ℚ
  context : String := ""
  detector_name : String := ""
deriving DecidableEq

/-- Key relation of `sorted(matches, key=lambda m: m.start)`. -/
def startLE (a b : PIIMatch) : Prop := a.start ≤ b.start

instance : DecidableRel startLE := fun a b => inferInstanceAs (Decidable (a.start ≤ b.start))

instance : IsTotal PIIMatch startLE := ⟨fun a b => Nat.le_total a.start b.start⟩

instance : IsTrans PIIMatch startLE := ⟨fun _ _ _ h h' => Nat.le_trans h h'⟩

/-- Key relation of `sorted(matches, key=lambda m: m.start, reverse=True)`:
`a` may precede `b` when `a.start ≥ b.start`, ties keeping input order. -/
def startGE (a b : PIIMatch) : Prop := b.start ≤ a.start

instance : DecidableRel startGE := fun a b => inferInstanceAs (Decidable (b.start ≤ a.start))

instance : IsTotal PIIMatch startGE := ⟨fun a b => Nat.le_total b.start a.start⟩

instance : IsTrans PIIMatch startGE := ⟨fun _ _ _ h h' => Nat.le_trans h' h⟩

/-- `sorted(matches, key=lambda m: m.start)` — a stable ascending sort. -/
def sortAscByStart (l : List PIIMatch) : List PIIMatch :=
  List.insertionSort startLE l

/-- `sorted(matches, key=lambda m: m.start, reverse=True)` — a stable
descending sort (ties keep input order, as CPython's `reverse=True` does). -/
def sortDescByStart (l : List PIIMatch) : List PIIMatch :=
  List.insertionSort startGE l

/-- `Validator.validate_ssn` (utils.py lines 110-141): strip `[-\s]`,
require exactly nine digits (`re.match(r'^\d{9}$', ...)`), then reject the
invalid area/group/serial combinations. -/
def validate_ssn (ssn : List Char) : Bool :=
  let clean := ssn.filter notSepChar
  if clean.length = 9 ∧ clean.all charIsAsciiDigit then
    let area := clean.take 3
    let group := (clean.drop 3).take 2
    let serial := (clean.drop 5).take 4
    if area = [ '0', '0', '0' ] ∨ area = [ '6', '6', '6' ] ∨ area.take 1 = [ '9' ] then
      false
    else if group = [ '0', '0' ] ∨ serial = [ '0', '0', '0', '0' ] then
      false
    else
      true
  else
    false

/-- `int(digit)` for a digit character. -/
def charDigitVal (c : Char) : Nat := c.toNat - 48

/-- One step of the source's Luhn loop: index `i` counted from the right,
doubling odd indices, and folding a two-digit result with `n // 10 + n % 10`. -/
def luhnTransform (i n : Nat) : Nat :=
  if i % 2 = 1 then
    if 2 * n > 9 then (2 * n) / 10 + (2 * n) % 10 else 2 * n
  else n

/-- The accumulated total of `luhn_check` over the reversed digit list,
starting at index `i`. -/
def luhnSumAux (i : Nat) : List Nat → Nat
  | [] => 0
  | d :: ds => luhnTransform i d + luhnSumAux (i + 1) ds

/-- The inner `luhn_check` of `validate_credit_card`. -/
def luhn_check (card : List Char) : Bool :=
  decide (luhnSumAux 0 (card.reverse.map charDigitVal) % 10 = 0)

/-- `Validator.validate_credit_card` (utils.py lines 143-176): strip
`[-\s]`, require `isdigit` and length between 13 and 19, then the Luhn
check. -/
def validate_credit_card (cc : List Char) : Bool :=
  let clean := cc.filter notSepChar
  if !(pyIsDigitStr clean) ∨ clean.length < 13 ∨ clean.length > 19 then
    false
  else
    luhn_check clean

/-- The Luhn step as the specification words it: double every second digit
from the right and subtract 9 when the doubled value exceeds 9. -/
def specLuhnTransform (i n : Nat) : Nat :=
  if i % 2 = 1 then
    if 2 * n > 9 then 2 * n - 9 else 2 * n
  else n

/-- The spec-worded Luhn total, indexed from the right. -/
def specLuhnSumAux (i : Nat) : List Nat → Nat
  | [] => 0
  | d :: ds => specLuhnTransform i d + specLuhnSumAux (i + 1) ds

/-- Credit-card validity exactly as the specification words it: after
stripping dashes and whitespace the candidate consists of 13 to 19 digits
and the Luhn mod-10 checksum is divisible by 10. -/
def spec_validate_credit_card (cc : List Char) : Bool :=
  let clean := cc.filter notSepChar
  decide (13 ≤ clean.length) && decide (clean.length ≤ 19) &&
    clean.all charIsAsciiDigit &&
    decide (specLuhnSumAux 0 (clean.reverse.map charDigitVal) % 10 = 0)

/-- The scan loop of `merge_overlapping_matches` (utils.py lines 292-301):
`last` is the current accumulator (`merged[-1]`); an overlapping candidate
replaces it when strictly more confident, a non-overlapping candidate
flushes it to the output. -/
def mergeLoop : PIIMatch → List PIIMatch → List PIIMatch
  | last, [] => [last]
  | last, cur :: rest =>
    if cur.start ≤ last.stop then
      if last.confidence < cur.confidence then mergeLoop cur rest
      else mergeLoop last rest
    else
      last :: mergeLoop cur rest

/-- `merge_overlapping_matches` (utils.py lines 275-303): stable sort by
`start`, then the linear accumulator scan. -/
def merge_overlapping_matches (ms : List PIIMatch) : List PIIMatch :=
  match sortAscByStart ms with
  | [] => []
  | m :: rest => mergeLoop m rest

/-- Span intersection of two half-open ranges. -/
def spansOverlap (x y : PIIMatch) : Prop :=
  x.start < y.stop ∧ y.start < x.stop

instance (x y : PIIMatch) : Decidable (spansOverlap x y) :=
  inferInstanceAs (Decidable (_ ∧ _))

/-- Disjointness of two half-open spans (the claims' "non-overlapping"). -/
def spansDisjoint (x y : PIIMatch) : Prop :=
  x.stop ≤ y.start ∨ y.stop ≤ x.start

instance (x y : PIIMatch) : Decidable (spansDisjoint x y) :=
  inferInstanceAs (Decidable (_ ∨ _))

/-- The `Anonymizer` of `processors/anonymizer.py`, reduced to the instance
state its methods read.  `hashHex` abstracts `hashlib.sha256(...).hexdigest()`
(a Python standard-library call); no claim depends on its value. -/
structure Anonymizer where
  default_method : String
  mask_char : Char
  preserve_length : Bool
  preserve_format : Bool
  replacement_patterns : List (String × List Char)
  hash_salt : List Char
  hashHex : List Char → List Char

/-- `self.anonymization_methods` of `Anonymizer.__init__`. -/
def anonymization_methods : List String :=
  [ "mask", "redact", "hash", "replace", "synthetic" ]

/-- The structural characters `'-()/@'` passed through by `_mask_value`. -/
def maskPassChars : List Char := [ '-', '(', ')', '/', '@' ]

/-- The plain branch of `_mask_value` (anonymizer.py lines 67-78): with
`preserve_length` every non-space, non-structural character becomes the mask
character; otherwise a fixed five-character mask. -/
def maskPlain (a : Anonymizer) (value : List Char) : List Char :=
  if a.preserve_length then
    value.map (fun c =>
      if charIsPySpace c then c
      else if c ∈ maskPassChars then c
      else a.mask_char)
  else
    List.replicate 5 a.mask_char

/-- `_mask_with_format` (anonymizer.py lines 80-102).  Its final fallback
re-enters `_mask_value`, which for any type outside ssn/phone/credit_card
reduces to the plain branch, embedded here as `maskPlain`. -/
def maskWithFormat (a : Anonymizer) (value : List Char) (pii_type : String) : List Char :=
  if pii_type = "ssn" then
    if '-' ∈ value then "XXX-XX-XXXX".toList else "XXXXXXXXX".toList
  else if pii_type = "phone" then
    if '(' ∈ value ∧ ')' ∈ value then "(XXX) XXX-XXXX".toList
    else if '-' ∈ value ∧ (value.splitOn '-').length = 3 then "XXX-XXX-XXXX".toList
    else "XXXXXXXXXX".toList
  else if pii_type = "credit_card" then
    if '-' ∈ value ∨ ' ' ∈ value then "XXXX-XXXX-XXXX-XXXX".toList
    else "XXXXXXXXXXXXXXXX".toList
  else
    maskPlain a value

/-- `_mask_value` (anonymizer.py lines 63-78). -/
def maskValue (a : Anonymizer) (value : List Char) (pii_type : String) : List Char :=
  if a.preserve_format ∧ pii_type ∈ [ "ssn", "phone", "credit_card" ] then
    maskWithFormat a value pii_type
  else
    maskPlain a value

/-- `_redact_value`. -/
def redactValue : List Char := "[REDACTED]".toList

/-- `_hash_value`: salted digest, truncated to eight hex characters and
wrapped in a tag. -/
def hashValue (a : Anonymizer) (value : List Char) : List Char :=
  "[HASH:".toList ++ (a.hashHex (value ++ a.hash_salt)).take 8 ++ "]".toList

/-- `_replace_value`: `self.replacement_patterns.get(pii_type, value)`. -/
def replaceValue (a : Anonymizer) (value : List Char) (pii_type : String) : List Char :=
  match List.lookup pii_type a.replacement_patterns with
  | some p => p
  | none => value

/-- `_generate_synthetic` (anonymizer.py lines 117-145).  For `name` values
that do not split into exactly two parts the Python function falls off the
end and returns `None`, embedded as `none`. -/
def generateSynthetic (a : Anonymizer) (value : List Char) (pii_type : String) :
    Option (List Char) :=
  if pii_type = "name" then
    if (pySplitWs value).length = 2 then some "John Smith".toList else none
  else if pii_type = "email" then
    some "user@domain.com".toList
  else if pii_type = "phone" then
    if '(' ∈ value then some "(123) 456-7890".toList else some "123-456-7890".toList
  else if pii_type = "ssn" then
    if '-' ∈ value then some "111-11-1111".toList else some "111111111".toList
  else if pii_type = "address" then
    some "123 Main Street".toList
  else if pii_type = "date" then
    some "01/01/1970".toList
  else
    some (replaceValue a value pii_type)

/-- `_anonymize_value` (anonymizer.py lines 46-61): strategy dispatch with a
final fallback to masking. -/
def anonymizeValue (a : Anonymizer) (mt : PIIMatch) (method : String) :
    Option (List Char) :=
  if method = "mask" then some (maskValue a mt.value mt.pii_type)
  else if method = "redact" then some redactValue
  else if method = "hash" then some (hashValue a mt.value)
  else if method = "replace" then some (replaceValue a mt.value mt.pii_type)
  else if method = "synthetic" then generateSynthetic a mt.value mt.pii_type
  else some (maskValue a mt.value mt.pii_type)

/-- The method normalization at the top of `anonymize_text` (lines 32-33):
a missing, empty or unknown strategy name falls back to the configured
default. -/
def normMethod (a : Anonymizer) (method : Option String) : String :=
  match method with
  | none => a.default_method
  | some s => if s = "" ∨ s ∉ anonymization_methods then a.default_method else s

/-- Python truthiness of `_anonymize_value`'s result (`if anonymized_value:`):
`None` and the empty string are falsy. -/
def pyTruthy : Option (List Char) → Bool
  | none => false
  | some v => !v.isEmpty

/-- One iteration of the splice loop of `anonymize_text` (lines 39-42):
falsy replacements are skipped, truthy ones are spliced over the span. -/
def spliceStep (a : Anonymizer) (method : String) (t : List Char) (mt : PIIMatch) :
    List Char :=
  match anonymizeValue a mt method with
  | none => t
  | some v => if v.isEmpty then t else t.take mt.start ++ v ++ t.drop mt.stop

/-- `Anonymizer.anonymize_text` (anonymizer.py lines 28-44): guard on empty
input, normalize the strategy, then splice each match in descending `start`
order. -/
def anonymize_text (a : Anonymizer) (text : List Char) (ms : List PIIMatch)
    (method : Option String) : List Char :=
  if text = [] ∨ ms = [] then text
  else
    (sortDescByStart ms).foldl (spliceStep a (normMethod a method)) text

/-- The `Anonymizer` built from `DEFAULT_CONFIG` (config.py): strategy
`mask`, mask character `*`, `preserve_length` on, `preserve_format` off, the
ten-entry replacement map of `anonymization.replacement_patterns`, and the
hard-coded salt.  The digest function is a parameter (see `Anonymizer`). -/
def defaultAnonymizer (h : List Char → List Char) : Anonymizer where
  default_method := "mask"
  mask_char := '*'
  preserve_length := true
  preserve_format := false
  replacement_patterns :=
    [ ("email", "[EMAIL]".toList), ("phone", "[PHONE]".toList),
      ("ssn", "[SSN]".toList), ("credit_card", "[CREDIT_CARD]".toList),
      ("ip_address", "[IP_ADDRESS]".toList), ("name", "[NAME]".toList),
      ("address", "[ADDRESS]".toList), ("date", "[DATE]".toList),
      ("passport", "[PASSPORT]".toList), ("license_plate", "[LICENSE_PLATE]".toList) ]
  hash_salt := "platypii_salt_2024".toList
  hashHex := h

/-- The replacement effectively applied to a span by `anonymize_text`: the
strategy's value when truthy, otherwise (skip) the span's own characters. -/
def effRep (a : Anonymizer) (method : String) (text : List Char) (mt : PIIMatch) :
    List Char :=
  match anonymizeValue a mt method with
  | none => (text.drop mt.start).take (mt.stop - mt.start)
  | some v =>
    if v.isEmpty then (text.drop mt.start).take (mt.stop - mt.start) else v

/-- Reference rendering of a splice over spans listed in ascending order:
the untouched gap before each span, then its replacement, then the rest;
closing with the untouched tail.  Characters outside all spans are copied
verbatim, in order, whatever the replacement lengths. -/
def renderSpans (text : List Char) (rep : PIIMatch → List Char) :
    Nat → List PIIMatch → List Char
  | pos, [] => text.drop pos
  | pos, mt :: rest =>
    (text.drop pos).take (mt.start - pos) ++ rep mt ++ renderSpans text rep mt.stop rest

/-- Python exception kinds reached by the embedded code. -/
inductive PyError where
  | attributeError : PyError
deriving DecidableEq

/-- `re.error`, the pattern-compile failure of the Python `re` module. -/
inductive PatternError where
  | compileError : PatternError
deriving DecidableEq

/-- A necessary syntactic condition for a Python regular expression to
compile: group parentheses must balance (an unmatched `(` raises
`re.error: missing ), unterminated subpattern`).  Used only to exhibit a
concrete syntactically invalid pattern. -/
def parenBalance : List Char → Nat → Bool
  | [], n => n == 0
  | c :: cs, n =>
    if c = '(' then parenBalance cs (n + 1)
    else if c = ')' then decide (0 < n) && parenBalance cs (n - 1)
    else parenBalance cs n

/-- See `parenBalance`. -/
def balancedParens (s : String) : Bool := parenBalance s.toList 0

/-- A pattern registry entry of `RegexDetector.patterns`. -/
structure PatternInfo where
  pattern : String
  confidence : ℚ
  validate : Bool
deriving DecidableEq

/-- Python `dict` assignment `d[k] = v` on an association list: overwrite an
existing key in place, else append (insertion order preserved). -/
def dictSet {α : Type} (d : List (String × α)) (k : String) (v : α) :
    List (String × α) :=
  if d.any (fun p => p.1 == k) then
    d.map (fun p => if p.1 == k then (k, v) else p)
  else
    d ++ [(k, v)]

/-- `RegexDetector.add_custom_pattern` (regex_detector.py lines 130-135).
The source compiles nothing and has no raising path; the `Except` result
type records that the registration always returns successfully. -/
def regexDetector_add_custom_pattern (patterns : List (String × PatternInfo))
    (pii_type : String) (pattern : String) (confidence : ℚ) (validateFlag : Bool) :
    Except PatternError (List (String × PatternInfo)) :=
  Except.ok (dictSet patterns pii_type ⟨pattern, confidence, validateFlag⟩)

/-- `PIIDetector.add_pattern` (core/detector.py lines 107-109): stores the
pattern string and its confidence, again with no compilation and no raising
path. -/
def pIIDetector_add_pattern (patterns : List (String × String))
    (confidences : List (String × ℚ)) (pii_type : String) (pattern : String)
    (confidence : ℚ) :
    Except PatternError (List (String × String) × List (String × ℚ)) :=
  Except.ok (dictSet patterns pii_type pattern, dictSet confidences pii_type confidence)

/-- The call `self.text_processor.clean_text(text)` at core/detector.py
line 31.  `TextProcessor` (utils.py lines 41-67) defines only
`extract_context`, so this attribute access raises `AttributeError` for
every argument. -/
def textProcessor_clean_text (_text : List Char) : Except PyError (List Char) :=
  Except.error PyError.attributeError

/-- `PIIDetector.detect` (core/detector.py lines 27-69): the empty/blank
guard returns `[]`; every other call reaches `clean_text`, which always
raises (see `textProcessor_clean_text`), so the remainder of the body
(pattern scan, merge, threshold filter) is unreachable and is not modelled —
the embedding propagates the error. -/
def pIIDetector_detect (text : List Char) : Except PyError (List PIIMatch) :=
  if text = [] ∨ (pyStrip text).length = 0 then Except.ok []
  else (textProcessor_clean_text text).map (fun _ => [])

/-- Three concrete matches for the overlap-resolution counterexample:
`cexA` spans [0,10) with confidence 9/10, `cexB` spans [2,3) with
confidence 19/20, `cexC` spans [4,5) with confidence 1/10.  The rational
literals are given in normal form so that kernel reduction can evaluate
the confidence comparisons. -/
def cexA : PIIMatch := ⟨ "a", "aaaaaaaaaa".toList, 0, 10, ⟨9, 10, by norm_num, by norm_num⟩, "", "" ⟩

/-- See `cexA`. -/
def cexB : PIIMatch := ⟨ "b", "b".toList, 2, 3, ⟨19, 20, by norm_num, by norm_num⟩, "", "" ⟩

/-- See `cexA`. -/
def cexC : PIIMatch := ⟨ "c", "c".toList, 4, 5, ⟨1, 10, by norm_num, by norm_num⟩, "", "" ⟩

/-- Invariant relation carried along the output of
`merge_overlapping_matches`: each element ends strictly before the next one
starts, and starts no later than it. -/
def mergedR (x y : PIIMatch) : Prop :=
  x.stop < y.start ∧ x.start ≤ y.start

instance : IsTrans PIIMatch mergedR :=
  ⟨fun _ _ _ h h' => ⟨Nat.lt_of_lt_of_le h.1 h'.2, Nat.le_trans h.2 h'.2⟩⟩

/-- Concrete overlapping pair used by witnesses. -/
def pairA : PIIMatch := ⟨ "x", "xx".toList, 0, 5, ⟨1, 2, by norm_num, by norm_num⟩, "", "" ⟩

/-- See `pairA`. -/
def pairB : PIIMatch := ⟨ "y", "yy".toList, 3, 8, ⟨3, 4, by norm_num, by norm_num⟩, "", "" ⟩

/-- Concrete text used by witnesses. -/
def wText : List Char := "hello world".toList

/-- Concrete match on `wText` used by witnesses. -/
def wMatch : PIIMatch := ⟨ "email", "world".toList, 6, 11, 9/10, "", "" ⟩

/-! ### Helper lemmas -/

theorem charDigitVal_le_nine {c : Char} (h : charIsAsciiDigit c = true) :
    charDigitVal c ≤ 9 := by
  simp only [charIsAsciiDigit, Bool.and_eq_true, decide_eq_true_eq] at h
  unfold charDigitVal
  omega

theorem luhnTransform_eq_spec (i : Nat) {d : Nat} (hd : d ≤ 9) :
    luhnTransform i d = specLuhnTransform i d := by
  unfold luhnTransform specLuhnTransform
  by_cases hi : i % 2 = 1
  · by_cases h9 : 2 * d > 9
    · simp only [hi, h9, if_pos]
      omega
    · simp [hi, h9]
  · simp [hi]

theorem luhnSumAux_eq_spec :
    ∀ (l : List Nat) (i : Nat), (∀ n ∈ l, n ≤ 9) →
      luhnSumAux i l = specLuhnSumAux i l := by
  intro l
  induction l with
  | nil => intro i _; rfl
  | cons d ds ih =>
    intro i h
    unfold luhnSumAux specLuhnSumAux
    rw [luhnTransform_eq_spec i (h d (List.mem_cons_self d ds)),
      ih (i + 1) (fun n hn => h n (List.mem_cons_of_mem d hn))]

theorem notSepChar_of_digit {c : Char} (h : charIsAsciiDigit c = true) :
    notSepChar c = true := by
  simp only [charIsAsciiDigit, Bool.and_eq_true, decide_eq_true_eq] at h
  have h45 : ¬(c = '-') := by
    intro he
    subst he
    exact absurd h (by decide)
  have hsp : charIsPySpace c = false := by
    unfold charIsPySpace
    simp only [Bool.or_eq_false_iff, beq_eq_false_iff_ne, ne_eq]
    refine ⟨⟨⟨⟨⟨?_, ?_⟩, ?_⟩, ?_⟩, ?_⟩, ?_⟩ <;>
      · intro he
        subst he
        exact absurd h (by decide)
  simp [notSepChar, hsp, beq_eq_false_iff_ne, h45]

theorem luhnSum_clean_eq_spec {clean : List Char}
    (hall : clean.all charIsAsciiDigit = true) :
    luhnSumAux 0 (clean.reverse.map charDigitVal) =
      specLuhnSumAux 0 (clean.reverse.map charDigitVal) := by
  apply luhnSumAux_eq_spec
  intro n hn
  rw [List.mem_map] at hn
  obtain ⟨c, hc, rfl⟩ := hn
  rw [List.all_eq_true] at hall
  exact charDigitVal_le_nine (hall c (List.mem_reverse.mp hc))

/-- **C8.** `validate_credit_card` accepts exactly the strings that, after
stripping dashes and whitespace, consist of 13 to 19 digits whose Luhn
mod-10 checksum (doubling every second digit from the right and subtracting
9 from doubled values exceeding 9) is divisible by 10; in particular it
accepts `4111111111111111` and rejects `4111111111111112`. -/
theorem validate_credit_card_luhn_spec :
    (∀ cc : List Char, validate_credit_card cc = spec_validate_credit_card cc) ∧
    validate_credit_card ( "4111111111111111".toList) = true ∧
    validate_credit_card ( "4111111111111112".toList) = false := by
  refine ⟨?_, by decide, by decide⟩
  intro cc
  unfold validate_credit_card spec_validate_credit_card
  set clean := cc.filter notSepChar with hclean
  by_cases hall : clean.all charIsAsciiDigit = true
  · by_cases h13 : 13 ≤ clean.length
    · by_cases h19 : clean.length ≤ 19
      · have hne : clean.isEmpty = false := by
          cases h : clean.isEmpty
          · rfl
          · rw [List.isEmpty_iff] at h
            rw [h] at h13
            simp at h13
        have hcond : ¬((!pyIsDigitStr clean) = true ∨ clean.length < 13 ∨ clean.length > 19) := by
          push_neg
          refine ⟨?_, by omega, by omega⟩
          simp [pyIsDigitStr, hne, hall]
        rw [if_neg hcond]
        unfold luhn_check
        rw [luhnSum_clean_eq_spec hall]
        simp [hall, h13, h19]
      · rw [if_pos (by right; right; omega)]
        simp [show ¬(clean.length ≤ 19) from h19]
    · rw [if_pos (by right; left; omega)]
      simp [show ¬(13 ≤ clean.length) from h13]
  · have hd : pyIsDigitStr clean = false := by
      simp only [Bool.not_eq_true] at hall
      simp [pyIsDigitStr, hall]
    rw [if_pos (by left; simp [hd])]
    simp only [Bool.not_eq_true] at hall
    simp [hall]

/-- **C10.** `validate_ssn` strips only dashes and whitespace, so a
dot-separated candidate of shape `ddd.dd.dddd` keeps its dots, fails the
nine-digit check, and is rejected. -/
theorem validate_ssn_rejects_dotted (a b c : List Char)
    (ha : a.length = 3) (hb : b.length = 2) (hc : c.length = 4)
    (hda : a.all charIsAsciiDigit = true) (hdb : b.all charIsAsciiDigit = true)
    (hdc : c.all charIsAsciiDigit = true) :
    validate_ssn (a ++ '.' :: (b ++ '.' :: c)) = false := by
  unfold validate_ssn
  have hfil : (a ++ '.' :: (b ++ '.' :: c)).filter notSepChar =
      a ++ '.' :: (b ++ '.' :: c) := by
    rw [List.filter_eq_self]
    intro x hx
    rw [List.all_eq_true] at hda hdb hdc
    rcases List.mem_append.mp hx with hxa | hx1
    · exact notSepChar_of_digit (hda x hxa)
    rcases List.mem_cons.mp hx1 with rfl | hx2
    · decide
    rcases List.mem_append.mp hx2 with hxb | hx3
    · exact notSepChar_of_digit (hdb x hxb)
    rcases List.mem_cons.mp hx3 with rfl | hxc
    · decide
    · exact notSepChar_of_digit (hdc x hxc)
  rw [hfil]
  have hlen : (a ++ '.' :: (b ++ '.' :: c)).length = 11 := by
    simp [ha, hb, hc]
  rw [if_neg]
  intro hcon
  rw [hlen] at hcon
  exact absurd hcon.1 (by omega)

/-- Witness for `validate_ssn_rejects_dotted` at the concrete candidate
`123.45.6789`. -/
theorem validate_ssn_rejects_dotted_witness :
    ([ '1', '2', '3' ] : List Char).length = 3 ∧
    ([ '4', '5' ] : List Char).length = 2 ∧
    ([ '6', '7', '8', '9' ] : List Char).length = 4 ∧
    ([ '1', '2', '3' ] : List Char).all charIsAsciiDigit = true ∧
    ([ '4', '5' ] : List Char).all charIsAsciiDigit = true ∧
    ([ '6', '7', '8', '9' ] : List Char).all charIsAsciiDigit = true ∧
    validate_ssn ([ '1', '2', '3' ] ++ '.' :: ([ '4', '5' ] ++ '.' :: [ '6', '7', '8', '9' ])) = false :=
  ⟨rfl, rfl, rfl, by decide, by decide, by decide,
    validate_ssn_rejects_dotted _ _ _ rfl rfl rfl (by decide) (by decide) (by decide)⟩

theorem mergeLoop_start_le :
    ∀ (rest : List PIIMatch) (last : PIIMatch),
      List.Sorted startLE (last :: rest) →
      ∀ z ∈ mergeLoop last rest, last.start ≤ z.start := by
  intro rest
  induction rest with
  | nil =>
    intro last _ z hz
    simp only [mergeLoop, List.mem_singleton] at hz
    exact le_of_eq (congrArg PIIMatch.start hz.symm)
  | cons cur rs ih =>
    intro last hp z hz
    rw [List.sorted_cons] at hp
    obtain ⟨hlast, hp'⟩ := hp
    by_cases h1 : cur.start ≤ last.stop
    · by_cases h2 : last.confidence < cur.confidence
      · rw [mergeLoop, if_pos h1, if_pos h2] at hz
        exact Nat.le_trans (hlast cur (List.mem_cons_self _ _)) (ih cur hp' z hz)
      · rw [mergeLoop, if_pos h1, if_neg h2] at hz
        refine ih last ?_ z hz
        rw [List.sorted_cons]
        exact ⟨fun b hb => hlast b (List.mem_cons_of_mem _ hb), (List.sorted_cons.mp hp').2⟩
    · rw [mergeLoop, if_neg h1] at hz
      rcases List.mem_cons.mp hz with rfl | hz'
      · exact Nat.le_refl _
      · exact Nat.le_trans (hlast cur (List.mem_cons_self _ _)) (ih cur hp' z hz')

theorem mergeLoop_chain :
    ∀ (rest : List PIIMatch) (last : PIIMatch),
      List.Sorted startLE (last :: rest) →
      List.Chain' mergedR (mergeLoop last rest) := by
  intro rest
  induction rest with
  | nil =>
    intro last _
    simp only [mergeLoop]
    exact List.chain'_singleton _
  | cons cur rs ih =>
    intro last hp
    rw [List.sorted_cons] at hp
    obtain ⟨hlast, hp'⟩ := hp
    by_cases h1 : cur.start ≤ last.stop
    · by_cases h2 : last.confidence < cur.confidence
      · rw [mergeLoop, if_pos h1, if_pos h2]
        exact ih cur hp'
      · rw [mergeLoop, if_pos h1, if_neg h2]
        refine ih last ?_
        rw [List.sorted_cons]
        exact ⟨fun b hb => hlast b (List.mem_cons_of_mem _ hb), (List.sorted_cons.mp hp').2⟩
    · rw [mergeLoop, if_neg h1]
      rw [List.chain'_cons']
      refine ⟨?_, ih cur hp'⟩
      intro y hy
      have hy' : y ∈ mergeLoop cur rs := List.mem_of_mem_head? hy
      have hcy : cur.start ≤ y.start := mergeLoop_start_le rs cur hp' y hy'
      have h1' : last.stop < cur.start := Nat.lt_of_not_le h1
      exact ⟨Nat.lt_of_lt_of_le h1' hcy,
        Nat.le_trans (hlast cur (List.mem_cons_self _ _)) hcy⟩

theorem merge_chainR (M : List PIIMatch) :
    List.Chain' mergedR (merge_overlapping_matches M) := by
  have hs : List.Sorted startLE (sortAscByStart M) := List.sorted_insertionSort startLE M
  unfold merge_overlapping_matches
  cases h : sortAscByStart M with
  | nil => exact List.chain'_nil
  | cons m rest =>
    rw [h] at hs
    exact mergeLoop_chain rest m hs

theorem merge_pairwiseR (M : List PIIMatch) :
    List.Pairwise mergedR (merge_overlapping_matches M) :=
  List.chain'_iff_pairwise.mp (merge_chainR M)

theorem sortAsc_eq_self_of_sorted {l : List PIIMatch} (h : List.Sorted startLE l) :
    sortAscByStart l = l :=
  List.Sorted.insertionSort_eq h

/-- **C3.** The output of `merge_overlapping_matches` is sorted ascending by
`start`, and adjacent output elements satisfy `a.end <= b.start` (no
overlap). -/
theorem merge_sorted_nonoverlap (M : List PIIMatch) :
    List.Sorted startLE (merge_overlapping_matches M) ∧
    List.Chain' (fun x y => x.stop ≤ y.start) (merge_overlapping_matches M) :=
  ⟨(merge_pairwiseR M).imp (fun h => h.2),
   (merge_chainR M).imp (fun _ _ h => Nat.le_of_lt h.1)⟩

theorem mergeLoop_id :
    ∀ (rest : List PIIMatch) (last : PIIMatch),
      List.Chain' (fun x y => x.stop < y.start) (last :: rest) →
      mergeLoop last rest = last :: rest := by
  intro rest
  induction rest with
  | nil => intro last _; rfl
  | cons cur rs ih =>
    intro last hc
    rw [List.chain'_cons] at hc
    obtain ⟨h1, hc'⟩ := hc
    rw [mergeLoop, if_neg (Nat.not_le.mpr h1), ih cur hc']

/-- **C4.** `merge_overlapping_matches` is idempotent. -/
theorem merge_idempotent (M : List PIIMatch) :
    merge_overlapping_matches (merge_overlapping_matches M) =
      merge_overlapping_matches M := by
  have hsorted : List.Sorted startLE (merge_overlapping_matches M) :=
    (merge_pairwiseR M).imp (fun h => h.2)
  have hchain : List.Chain' (fun x y => x.stop < y.start) (merge_overlapping_matches M) :=
    (merge_chainR M).imp (fun _ _ h => h.1)
  set out := merge_overlapping_matches M with hout
  clear_value out
  unfold merge_overlapping_matches
  rw [sortAsc_eq_self_of_sorted hsorted]
  cases out with
  | nil => rfl
  | cons m rest => exact mergeLoop_id rest m hchain

/-- **C2, counterexample.** In the input `[cexA, cexB, cexC]` the matches
`cexA` (span `[0,10)`, confidence `9/10`) and `cexC` (span `[4,5)`,
confidence `1/10`) overlap; `cexC` survives the merge while `cexA` does
not, yet `cexC` does not have the maximum confidence of the overlapping
group — refuting the claim that a survivor always carries the maximum
confidence among the input matches it overlaps. -/
theorem merge_confidence_dominance_cex :
    merge_overlapping_matches [cexA, cexB, cexC] = [cexB, cexC] ∧
    spansOverlap cexA cexC ∧
    cexC ∈ merge_overlapping_matches [cexA, cexB, cexC] ∧
    cexA ∉ merge_overlapping_matches [cexA, cexB, cexC] ∧
    cexC.confidence < cexA.confidence := by
  refine ⟨by decide, by decide, by decide, by decide, by decide⟩

/-- **C2, amended.** For a two-match input whose spans conflict under the
merge's own test (the later-starting match begins no later than the
earlier one ends), the survivor of `merge_overlapping_matches` is the more
confident of the two, a tie keeping the earlier-encountered one. -/
theorem merge_overlapping_pair (a b : PIIMatch) (h1 : a.start ≤ b.start)
    (h2 : b.start ≤ a.stop) :
    merge_overlapping_matches [a, b] =
      [if a.confidence < b.confidence then b else a] := by
  unfold merge_overlapping_matches sortAscByStart
  simp only [List.insertionSort, List.orderedInsert]
  rw [if_pos (show startLE a b from h1)]
  show mergeLoop a [b] = _
  rw [mergeLoop, if_pos h2]
  by_cases hc : a.confidence < b.confidence
  · rw [if_pos hc, if_pos hc]
    rfl
  · rw [if_neg hc, if_neg hc]
    rfl

/-- Witness for `merge_overlapping_pair` at the overlapping pair
`pairA` (span `[0,5)`, confidence `1/2`) and `pairB` (span `[3,8)`,
confidence `3/4`). -/
theorem merge_overlapping_pair_witness :
    pairA.start ≤ pairB.start ∧ pairB.start ≤ pairA.stop ∧
    merge_overlapping_matches [pairA, pairB] =
      [if pairA.confidence < pairB.confidence then pairB else pairA] :=
  ⟨by decide, by decide, merge_overlapping_pair pairA pairB (by decide) (by decide)⟩

theorem lookup_cons_ne {α : Type} (k : String) (p : String × α) (tl : List (String × α))
    (hk : (p.1 == k) = false) : List.lookup k (p :: tl) = List.lookup k tl := by
  obtain ⟨a, b⟩ := p
  simp only [List.lookup]
  have hne : (k == a) = false := by
    simp only [beq_eq_false_iff_ne] at hk ⊢
    exact fun h => hk h.symm
  rw [hne]

theorem lookup_dictSet {α : Type} (d : List (String × α)) (k : String) (v : α) :
    List.lookup k (dictSet d k v) = some v := by
  induction d with
  | nil => simp [dictSet, List.lookup]
  | cons p tl ih =>
    unfold dictSet
    by_cases hk : (p.1 == k) = true
    · rw [if_pos (by simp [List.any_cons, hk])]
      simp only [List.map_cons, if_pos hk]
      simp [List.lookup]
    · by_cases ha : tl.any (fun q => q.1 == k) = true
      · rw [if_pos (by simp [List.any_cons, ha])]
        simp only [List.map_cons, if_neg hk]
        rw [lookup_cons_ne k p _ (Bool.not_eq_true _ ▸ hk)]
        unfold dictSet at ih
        rw [if_pos ha] at ih
        exact ih
      · rw [if_neg (by simp [List.any_cons, hk, ha])]
        simp only [List.cons_append]
        rw [lookup_cons_ne k p _ (Bool.not_eq_true _ ▸ hk)]
        unfold dictSet at ih
        rw [if_neg ha] at ih
        exact ih

/-- **C6, counterexample.** The pattern `(` is syntactically invalid (its
group parentheses do not balance, so `re.compile` raises `re.error`), yet
registering it through `add_custom_pattern` raises nothing: the call
returns successfully with the invalid pattern stored — refuting the claim
that registration fails immediately on an invalid pattern. -/
theorem add_custom_pattern_accepts_invalid_cex :
    balancedParens "(" = false ∧
    regexDetector_add_custom_pattern [] "custom" "(" (1/2) false =
      Except.ok [("custom", ⟨ "(", 1/2, false ⟩)] :=
  ⟨by decide, rfl⟩

/-- **C6, amended.** Pattern registration never raises: both
`RegexDetector.add_custom_pattern` and `PIIDetector.add_pattern` store the
supplied pattern unconditionally (no compilation is attempted), so an
invalid regular expression is accepted at registration and any compile
failure is deferred to a later `detect` call. -/
theorem add_pattern_registration_never_raises :
    (∀ (ps : List (String × PatternInfo)) (pii_type pat : String) (conf : ℚ) (vf : Bool),
      ∃ d, regexDetector_add_custom_pattern ps pii_type pat conf vf = Except.ok d ∧
        List.lookup pii_type d = some ⟨ pat, conf, vf ⟩) ∧
    (∀ (ps : List (String × String)) (cs : List (String × ℚ)) (pii_type pat : String)
        (conf : ℚ),
      ∃ d e, pIIDetector_add_pattern ps cs pii_type pat conf = Except.ok (d, e) ∧
        List.lookup pii_type d = some pat ∧ List.lookup pii_type e = some conf) :=
  ⟨fun ps pt _ _ _ => ⟨_, rfl, lookup_dictSet ps pt _⟩,
   fun ps cs pt _ _ => ⟨_, _, rfl, lookup_dictSet ps pt _, lookup_dictSet cs pt _⟩⟩

/-- **C5** (evidence for the code bug).  On the end-to-end scenario text,
`PIIDetector.detect` does not return the two expected matches: it raises
`AttributeError`, because it calls `TextProcessor.clean_text` and
`TextProcessor` in `utils.py` defines no such method.  The anonymization
half of the scenario does hold: splicing the two intended matches with the
`replace` strategy and the default replacement map yields exactly
`Email [EMAIL] or call [PHONE]`. -/
theorem detect_scenario_attribute_error :
    pIIDetector_detect ( "Email john@x.com or call 555-123-4567".toList) =
      Except.error PyError.attributeError ∧
    anonymize_text (defaultAnonymizer (fun _ => []))
        ( "Email john@x.com or call 555-123-4567".toList)
        [⟨ "email", "john@x.com".toList, 6, 16, 9/10, "", "regex" ⟩,
         ⟨ "phone", "555-123-4567".toList, 25, 37, 4/5, "", "regex" ⟩]
        (some "replace") =
      "Email [EMAIL] or call [PHONE]".toList :=
  ⟨rfl, by decide⟩

/-- **C7.** Under the default configuration, a strategy name outside the
supported set is normalized to the default strategy `mask`, so
`anonymize_text` returns exactly the output of the `mask` strategy (and,
being a total function, raises nothing). -/
theorem anonymize_unknown_strategy_mask (h : List Char → List Char) (text : List Char)
    (ms : List PIIMatch) (s : String) (hs : s ∉ anonymization_methods) :
    anonymize_text (defaultAnonymizer h) text ms (some s) =
      anonymize_text (defaultAnonymizer h) text ms (some "mask") := by
  have h1 : normMethod (defaultAnonymizer h) (some s) = "mask" := by
    show (if s = "" ∨ s ∉ anonymization_methods then
      (defaultAnonymizer h).default_method else s) = "mask"
    rw [if_pos (Or.inr hs)]
    rfl
  have h2 : normMethod (defaultAnonymizer h) (some "mask") = "mask" := by
    show (if ( "mask" : String) = "" ∨ ( "mask" : String) ∉ anonymization_methods then
      (defaultAnonymizer h).default_method else "mask") = "mask"
    rw [if_neg (by push_neg; exact ⟨by decide, by decide⟩)]
  unfold anonymize_text
  rw [h1, h2]

/-- Witness for `anonymize_unknown_strategy_mask` at the unknown strategy
name `foo`. -/
theorem anonymize_unknown_strategy_mask_witness :
    ( "foo" : String) ∉ anonymization_methods ∧
    anonymize_text (defaultAnonymizer (fun _ => [])) wText [wMatch] (some "foo") =
      anonymize_text (defaultAnonymizer (fun _ => [])) wText [wMatch] (some "mask") :=
  ⟨by decide, anonymize_unknown_strategy_mask _ _ _ _ (by decide)⟩

theorem spliceStep_id {a : Anonymizer} {m : String} {mt : PIIMatch}
    (h : pyTruthy (anonymizeValue a mt m) = false) :
    ∀ t, spliceStep a m t mt = t := by
  intro t
  unfold spliceStep
  cases hv : anonymizeValue a mt m with
  | none => rfl
  | some v =>
    rw [hv] at h
    simp only [pyTruthy, Bool.not_eq_false'] at h
    show (if v.isEmpty = true then t else t.take mt.start ++ v ++ t.drop mt.stop) = t
    rw [if_pos h]

theorem foldl_skip_filter (f : List Char → PIIMatch → List Char) (p : PIIMatch → Bool)
    (hid : ∀ t mt, p mt = false → f t mt = t) :
    ∀ (l : List PIIMatch) (t : List Char),
      List.foldl f t l = List.foldl f t (l.filter p) := by
  intro l
  induction l with
  | nil => intro _; rfl
  | cons x xs ih =>
    intro t
    by_cases hp : p x = true
    · rw [List.filter_cons_of_pos hp]
      simp only [List.foldl_cons]
      exact ih (f t x)
    · have hp' : p x = false := Bool.not_eq_true _ ▸ hp
      rw [List.filter_cons_of_neg (by simp [hp'])]
      simp only [List.foldl_cons, hid t x hp']
      exact ih t

theorem orderedInsert_cons_of_forall (x : PIIMatch) (l : List PIIMatch)
    (h : ∀ z ∈ l, startGE x z) : List.orderedInsert startGE x l = x :: l := by
  cases l with
  | nil => rfl
  | cons z zs =>
    simp only [List.orderedInsert]
    rw [if_pos (h z (List.mem_cons_self _ _))]

theorem filter_orderedInsert (p : PIIMatch → Bool) (x : PIIMatch) :
    ∀ (s : List PIIMatch), List.Sorted startGE s →
      (List.orderedInsert startGE x s).filter p =
        if p x then List.orderedInsert startGE x (s.filter p) else s.filter p := by
  intro s
  induction s with
  | nil =>
    intro _
    by_cases hp : p x = true <;> simp [List.orderedInsert, List.filter, hp]
  | cons y ys ih =>
    intro hs
    rw [List.sorted_cons] at hs
    obtain ⟨hy, hs'⟩ := hs
    by_cases hxy : startGE x y
    · simp only [List.orderedInsert]
      rw [if_pos hxy]
      by_cases hpx : p x = true
      · rw [if_pos hpx, List.filter_cons_of_pos hpx]
        by_cases hpy : p y = true
        · rw [List.filter_cons_of_pos hpy]
          simp only [List.orderedInsert]
          rw [if_pos hxy]
        · rw [List.filter_cons_of_neg hpy]
          rw [orderedInsert_cons_of_forall x _ (fun z hz =>
            Nat.le_trans (hy z (List.mem_of_mem_filter hz)) hxy)]
      · rw [if_neg hpx, List.filter_cons_of_neg hpx]
    · simp only [List.orderedInsert]
      rw [if_neg hxy]
      by_cases hpy : p y = true
      · rw [List.filter_cons_of_pos hpy, ih hs']
        by_cases hpx : p x = true
        · rw [if_pos hpx, if_pos hpx, List.filter_cons_of_pos hpy]
          simp only [List.orderedInsert]
          rw [if_neg hxy]
        · rw [if_neg hpx, if_neg hpx, List.filter_cons_of_pos hpy]
      · rw [List.filter_cons_of_neg hpy, ih hs', List.filter_cons_of_neg hpy]

theorem filter_sortDesc (p : PIIMatch → Bool) :
    ∀ l : List PIIMatch, (sortDescByStart l).filter p = sortDescByStart (l.filter p) := by
  intro l
  induction l with
  | nil => rfl
  | cons x xs ih =>
    unfold sortDescByStart at ih ⊢
    simp only [List.insertionSort]
    rw [filter_orderedInsert p x _ (List.sorted_insertionSort startGE xs), ih]
    by_cases hp : p x = true
    · rw [if_pos hp, List.filter_cons_of_pos hp]
      simp only [List.insertionSort]
    · have hp' : p x = false := Bool.not_eq_true _ ▸ hp
      rw [if_neg hp, List.filter_cons_of_neg (by simp [hp'])]

/-- **C9.** Matches whose per-strategy replacement is falsy (`None` or the
empty string, e.g. the `replace` strategy with the match's type mapped to
the empty string) are skipped by `anonymize_text`: removing them from the
input leaves the output unchanged, so their spans keep the original
characters. -/
theorem anonymize_skips_empty_replacement (a : Anonymizer) (text : List Char)
    (ms : List PIIMatch) (method : Option String) :
    anonymize_text a text ms method =
      anonymize_text a text
        (ms.filter (fun mt => pyTruthy (anonymizeValue a mt (normMethod a method))))
        method := by
  unfold anonymize_text
  by_cases ht : text = []
  · simp [ht]
  by_cases hm : ms = []
  · simp [hm]
  rw [if_neg (by simp [ht, hm])]
  have hid : ∀ (t : List Char) (mt : PIIMatch),
      (fun mt => pyTruthy (anonymizeValue a mt (normMethod a method))) mt = false →
      spliceStep a (normMethod a method) t mt = t :=
    fun t mt h => spliceStep_id h t
  have key : List.foldl (spliceStep a (normMethod a method)) text (sortDescByStart ms) =
      List.foldl (spliceStep a (normMethod a method)) text
        (sortDescByStart (ms.filter
          (fun mt => pyTruthy (anonymizeValue a mt (normMethod a method))))) := by
    rw [foldl_skip_filter _ _ hid (sortDescByStart ms) text, filter_sortDesc _ ms]
  by_cases hf : ms.filter (fun mt => pyTruthy (anonymizeValue a mt (normMethod a method))) = []
  · rw [if_pos (Or.inr hf), key, hf]
    rfl
  · rw [if_neg (by simp [ht, hf])]
    exact key

theorem renderSpans_take (text : List Char) (rep : PIIMatch → List Char)
    (rest : List PIIMatch) (s : Nat) (hlen : s ≤ text.length)
    (hhead : ∀ mt ∈ rest.head?, s ≤ mt.start) :
    (renderSpans text rep 0 rest).take s = text.take s := by
  cases rest with
  | nil => simp [renderSpans]
  | cons mt rs =>
    have hs : s ≤ mt.start := hhead mt rfl
    show ((text.drop 0).take (mt.start - 0) ++ rep mt ++
      renderSpans text rep mt.stop rs).take s = _
    rw [List.drop_zero, Nat.sub_zero, List.append_assoc,
      List.take_append_of_le_length (by rw [List.length_take]; exact le_min hs hlen),
      List.take_take, min_eq_left hs]

theorem renderSpans_drop (text : List Char) (rep : PIIMatch → List Char)
    (rest : List PIIMatch) (e : Nat) (hlen : e ≤ text.length)
    (hhead : ∀ mt ∈ rest.head?, e ≤ mt.start) :
    (renderSpans text rep 0 rest).drop e = renderSpans text rep e rest := by
  cases rest with
  | nil => simp [renderSpans]
  | cons mt rs =>
    have he : e ≤ mt.start := hhead mt rfl
    show ((text.drop 0).take (mt.start - 0) ++ rep mt ++
        renderSpans text rep mt.stop rs).drop e =
      (text.drop e).take (mt.start - e) ++ rep mt ++ renderSpans text rep mt.stop rs
    rw [List.drop_zero, Nat.sub_zero, List.append_assoc,
      List.drop_append_of_le_length (by rw [List.length_take]; exact le_min he hlen),
      List.drop_take, List.append_assoc]

theorem renderSpans_expand (text : List Char) (rep : PIIMatch → List Char)
    (rest : List PIIMatch) (e : Nat) (hlen : e ≤ text.length)
    (hhead : ∀ mt ∈ rest.head?, e ≤ mt.start) :
    renderSpans text rep 0 rest = text.take e ++ renderSpans text rep e rest := by
  conv_lhs => rw [← List.take_append_drop e (renderSpans text rep 0 rest)]
  rw [renderSpans_take text rep rest e hlen hhead,
    renderSpans_drop text rep rest e hlen hhead]

theorem spliceStep_renderSpans (a : Anonymizer) (m : String) (text : List Char)
    (mt : PIIMatch) (rest : List PIIMatch)
    (h1 : mt.start < mt.stop) (h2 : mt.stop ≤ text.length)
    (h3 : ∀ m2 ∈ rest.head?, mt.stop ≤ m2.start) :
    spliceStep a m (renderSpans text (effRep a m text) 0 rest) mt =
      renderSpans text (effRep a m text) 0 (mt :: rest) := by
  have hstart : mt.start ≤ text.length := Nat.le_trans (Nat.le_of_lt h1) h2
  have h3' : ∀ m2 ∈ rest.head?, mt.start ≤ m2.start :=
    fun m2 hm2 => Nat.le_trans (Nat.le_of_lt h1) (h3 m2 hm2)
  have hsplit : text.take mt.start ++ (text.drop mt.start).take (mt.stop - mt.start) =
      text.take mt.stop := by
    rw [← List.take_add]
    congr 1
    omega
  have hrhs : renderSpans text (effRep a m text) 0 (mt :: rest) =
      text.take mt.start ++ effRep a m text mt ++
        renderSpans text (effRep a m text) mt.stop rest := by
    show (text.drop 0).take (mt.start - 0) ++ _ ++ _ = _
    rw [List.drop_zero, Nat.sub_zero]
  unfold spliceStep
  cases hv : anonymizeValue a mt m with
  | none =>
    rw [hrhs]
    have heff : effRep a m text mt = (text.drop mt.start).take (mt.stop - mt.start) := by
      unfold effRep
      rw [hv]
    rw [heff, hsplit]
    exact renderSpans_expand text _ rest mt.stop h2 h3
  | some v =>
    by_cases hve : v.isEmpty = true
    · show (if v.isEmpty = true then _ else _) = _
      rw [if_pos hve, hrhs]
      have heff : effRep a m text mt = (text.drop mt.start).take (mt.stop - mt.start) := by
        unfold effRep
        rw [hv]
        show (if v.isEmpty = true then (text.drop mt.start).take (mt.stop - mt.start)
          else v) = _
        rw [if_pos hve]
      rw [heff, hsplit]
      exact renderSpans_expand text _ rest mt.stop h2 h3
    · show (if v.isEmpty = true then _
        else (renderSpans text (effRep a m text) 0 rest).take mt.start ++ v ++
          (renderSpans text (effRep a m text) 0 rest).drop mt.stop) = _
      rw [if_neg hve, hrhs]
      have heff : effRep a m text mt = v := by
        unfold effRep
        rw [hv]
        show (if v.isEmpty = true then (text.drop mt.start).take (mt.stop - mt.start)
          else v) = _
        rw [if_neg hve]
      rw [heff, renderSpans_take text _ rest mt.start hstart h3',
        renderSpans_drop text _ rest mt.stop h2 h3]

theorem foldl_splice_renderSpans (a : Anonymizer) (m : String) (text : List Char) :
    ∀ asc : List PIIMatch,
      List.Pairwise (fun x y => x.stop ≤ y.start) asc →
      (∀ mt ∈ asc, mt.start < mt.stop ∧ mt.stop ≤ text.length) →
      List.foldl (spliceStep a m) text asc.reverse =
        renderSpans text (effRep a m text) 0 asc := by
  intro asc
  induction asc with
  | nil => intro _ _; rfl
  | cons mt rest ih =>
    intro hp hb
    rw [List.reverse_cons, List.foldl_concat]
    rw [List.pairwise_cons] at hp
    obtain ⟨hmt, hp'⟩ := hp
    rw [ih hp' (fun z hz => hb z (List.mem_cons_of_mem _ hz))]
    exact spliceStep_renderSpans a m text mt rest (hb mt (List.mem_cons_self _ _)).1
      (hb mt (List.mem_cons_self _ _)).2
      (fun m2 hm2 => hmt m2 (List.mem_of_mem_head? hm2))

/-- **C1.** Offset safety of `anonymize_text`: for any pairwise
non-overlapping in-bounds match set and any strategy, the splice loop over
the matches in descending `start` order produces exactly the
gap/replacement decomposition `renderSpans` of the original text — so every
character outside all match spans is copied verbatim, in order, at its
corresponding (shifted) position, regardless of the replacement lengths. -/
theorem anonymize_text_offset_safe (a : Anonymizer) (text : List Char)
    (ms : List PIIMatch) (method : Option String)
    (hdisj : List.Pairwise spansDisjoint ms)
    (hbound : ∀ mt ∈ ms, mt.start < mt.stop ∧ mt.stop ≤ text.length) :
    anonymize_text a text ms method =
      renderSpans text (effRep a (normMethod a method) text) 0
        ((sortDescByStart ms).reverse) := by
  by_cases hm : ms = []
  · subst hm
    unfold anonymize_text
    rw [if_pos (Or.inr rfl)]
    rfl
  by_cases ht : text = []
  · exfalso
    obtain ⟨mt, hmt⟩ := List.exists_mem_of_ne_nil ms hm
    obtain ⟨hb1, hb2⟩ := hbound mt hmt
    rw [ht] at hb2
    simp at hb2
    omega
  unfold anonymize_text
  rw [if_neg (by simp [ht, hm])]
  have hperm : (sortDescByStart ms).Perm ms := List.perm_insertionSort startGE ms
  have hdisj' : List.Pairwise spansDisjoint (sortDescByStart ms) :=
    (hperm.pairwise_iff (fun h => Or.symm h)).mpr hdisj
  have hsorted : List.Sorted startGE (sortDescByStart ms) :=
    List.sorted_insertionSort startGE ms
  have hbound' : ∀ mt ∈ sortDescByStart ms, mt.start < mt.stop ∧ mt.stop ≤ text.length :=
    fun mt hmt => hbound mt (hperm.subset hmt)
  have hpair : List.Pairwise (fun x y => x.stop ≤ y.start)
      ((sortDescByStart ms).reverse) := by
    rw [List.pairwise_reverse]
    refine List.Pairwise.imp_of_mem ?_ (hdisj'.and hsorted)
    intro x y hx hy hr
    obtain ⟨hd, hge⟩ := hr
    have hge' : y.start ≤ x.start := hge
    obtain ⟨hx1, _⟩ := hbound' x hx
    rcases hd with h | h
    · omega
    · exact h
  have key := foldl_splice_renderSpans a (normMethod a method) text
    ((sortDescByStart ms).reverse) hpair
    (fun mt hmt => hbound' mt (List.mem_reverse.mp hmt))
  rw [List.reverse_reverse] at key
  exact key

/-- Witness for `anonymize_text_offset_safe` at a single in-bounds match on
`wText`. -/
theorem anonymize_text_offset_safe_witness :
    List.Pairwise spansDisjoint [wMatch] ∧
    (∀ mt ∈ [wMatch], mt.start < mt.stop ∧ mt.stop ≤ wText.length) ∧
    anonymize_text (defaultAnonymizer (fun _ => [])) wText [wMatch] (some "redact") =
      renderSpans wText
        (effRep (defaultAnonymizer (fun _ => []))
          (normMethod (defaultAnonymizer (fun _ => [])) (some "redact")) wText) 0
        ((sortDescByStart [wMatch]).reverse) :=
  ⟨by simp, by decide,
    anonymize_text_offset_safe _ _ _ _ (by simp) (by decide)⟩
